import Mathlib

/-!
A shallow embedding of the market-api catalog core
(`analyzer/core/tree.py` and the endpoint logic of `analyzer/api/app.py`)
together with proofs that settle the frozen claims about the spec.

Modelling conventions:
* Python `dict`s keyed by UUID become insertion-ordered association lists
  (`Dict α` below) with first-match lookup; assignment replaces in place
  or appends at the end, exactly like CPython dicts.
* UUIDs become `Nat`; `datetime` values become `Int` seconds; the
  `timedelta.days` attribute becomes floor division by 86400 (`Int.fdiv`).
* Fallible Python code (KeyError, TypeError, ValueError, AttributeError,
  ZeroDivisionError, HTTPException) returns `Except PyErr` or a
  `state × Option PyErr` pair where the claim needs the state reached
  before the exception.
* The unbounded recursion of `calculate_price_for_category`,
  `calculate_date_for_category` and `get_nodes` is bounded by explicit
  fuel; callers pass `nodes.length + 1`, which suffices for every
  acyclic tree, and fuel exhaustion is the distinguished error
  `PyErr.fuelOut` (where CPython would not terminate).
-/

/-- The Python exceptions and HTTP error responses the endpoints can surface. -/
inductive PyErr where
  | keyError
  | typeError
  | valueError
  | attributeError
  | zeroDivision
  | fuelOut
  | notFound
  | validationFailed
  deriving DecidableEq, Repr

/-- The `ShopUnitType` enum of `analyzer/api/schema.py`. -/
inductive NodeType where
  | OFFER
  | CATEGORY
  deriving DecidableEq, Repr

/-- The dict passed to `MarketTree.add`: the import item merged with the
batch-wide `date` (`item.dict() | {"date": date}` in `load_items`). -/
structure NodeIn where
  id : Nat
  name : String
  parent_id : Option Nat
  type : NodeType
  price : Option Int
  date : Int
  deriving DecidableEq, Repr

/-- A node as stored in `MarketTree.nodes`: the incoming dict plus the
`children` slot (`None` sentinel for an OFFER, list of child ids for a
CATEGORY). -/
structure Node where
  id : Nat
  name : String
  parent_id : Option Nat
  type : NodeType
  price : Option Int
  date : Int
  children : Option (List Nat)
  deriving DecidableEq, Repr

/-- Insertion-ordered association list modelling a CPython `dict` keyed by
UUID: lookup finds the first (only) matching key, assignment replaces an
existing key in place and appends a new key at the end, deletion removes
the key's entry. -/
def Dict (α : Type) : Type := List (Nat × α)

namespace Dict

/-- `d[k]` as an `Option`: first entry whose key is `k`. -/
def get? {α : Type} : Dict α → Nat → Option α
  | [], _ => none
  | (k', v) :: rest, k => if k' = k then some v else get? rest k

/-- `k in d`. -/
def contains {α : Type} (d : Dict α) (k : Nat) : Bool :=
  (d.get? k).isSome

/-- `d[k] = v`: replace in place if the key exists, else append at the end. -/
def set {α : Type} : Dict α → Nat → α → Dict α
  | [], k, v => [(k, v)]
  | (k', v') :: rest, k, v =>
      if k' = k then (k, v) :: rest else (k', v') :: set rest k v

/-- `del d[k]` (the key is assumed present by callers that do not guard). -/
def erase {α : Type} : Dict α → Nat → Dict α
  | [], _ => []
  | (k', v') :: rest, k => if k' = k then rest else (k', v') :: erase rest k

/-- The entry list iterated by `for k, v in d.items()` (the list itself). -/
def entries {α : Type} (d : Dict α) : List (Nat × α) := d

/-- Number of entries. -/
def length {α : Type} (d : Dict α) : Nat := List.length d

end Dict

/-- The in-memory catalog: `self.nodes` and `self.price_by_id` of
`MarketTree.__init__`. -/
structure MarketTree where
  nodes : Dict Node
  price_by_id : Dict (List (Int × Int))

/-- Python truthiness of the optional `node["price"]`: `None` and `0` are
falsy, every other integer is truthy. -/
def truthy : Option Int → Bool
  | none => false
  | some v => v != 0

/-- Ascending comparison of `(timestamp, price)` observations by timestamp,
the key used by `get_statistic_by_id`'s in-place sort. -/
def tsLE (a b : Int × Int) : Prop := a.1 ≤ b.1

/-- Descending comparison of `(timestamp, price)` observations by timestamp,
the key used by `get_sales`'s in-place sort (`reverse=True`). -/
def tsGE (a b : Int × Int) : Prop := b.1 ≤ a.1

instance : DecidableRel tsLE := fun a b => inferInstanceAs (Decidable (a.1 ≤ b.1))
instance : DecidableRel tsGE := fun a b => inferInstanceAs (Decidable (b.1 ≤ a.1))
instance : IsTotal (Int × Int) tsLE := ⟨fun a b => le_total a.1 b.1⟩
instance : IsTrans (Int × Int) tsLE := ⟨fun _ _ _ h h' => le_trans h h'⟩
instance : IsTotal (Int × Int) tsGE := ⟨fun a b => le_total b.1 a.1⟩
instance : IsTrans (Int × Int) tsGE := ⟨fun _ _ _ h h' => le_trans h' h⟩

/-- `history.sort(key=lambda o: o[0])`: stable ascending sort by timestamp. -/
def sortAsc (l : List (Int × Int)) : List (Int × Int) := List.insertionSort tsLE l

/-- `history.sort(key=lambda o: o[0], reverse=True)`: stable descending sort
by timestamp. -/
def sortDesc (l : List (Int × Int)) : List (Int × Int) := List.insertionSort tsGE l

/-- `strftime("%Y-%m-%dT%H:%M:%SZ")` of `MarketTree.convert_date`, which is
injective on the whole-second timestamps of this model, so it is carried as
the timestamp itself. -/
def convert_date (d : Int) : Int := d

namespace MarketTree

/-- `MarketTree.add_price`: append one `(date, price)` observation to the
offer's history, creating the history on first append. -/
def add_price (prices : Dict (List (Int × Int))) (id : Nat) (date price : Int) :
    Dict (List (Int × Int)) :=
  match prices.get? id with
  | none => prices.set id [(date, price)]
  | some l => prices.set id (l ++ [(date, price)])

/-- `MarketTree.delete_price_by_id`: `del self.price_by_id[id]`, a KeyError
when the id has no history. -/
def delete_price_by_id (t : MarketTree) (id : Nat) : Except PyErr MarketTree :=
  if t.price_by_id.contains id then
    .ok { t with price_by_id := t.price_by_id.erase id }
  else .error .keyError

/-- The backfill loop of `MarketTree.add`: walk `self.nodes.items()` and
adopt every node whose `parent_id` equals `id` into the freshly written
category's `children`, guarding against duplicates.  Membership in a `None`
children sentinel is a TypeError, raised at the first matching entry. -/
def backfill_children (id : Nat) :
    List (Nat × Node) → Option (List Nat) → Option (List Nat) × Option PyErr
  | [], cs => (cs, none)
  | (node_id, node_info) :: rest, cs =>
    if node_info.parent_id = some id then
      match cs with
      | none => (none, some .typeError)
      | some l =>
          if node_id ∈ l then backfill_children id rest (some l)
          else backfill_children id rest (some (l ++ [node_id]))
    else backfill_children id rest cs

/-- The final statement of `MarketTree.add`: if `parent_id` names a node
present in the tree and the new id is not yet among that parent's
`children`, append it.  Membership in an OFFER parent's `None` children
sentinel is a TypeError. -/
def register_in_parent (t2 : MarketTree) (id : Nat) (parent_id : Option Nat) :
    MarketTree × Option PyErr :=
  match parent_id with
  | none => (t2, none)
  | some p =>
    match t2.nodes.get? p with
    | none => (t2, none)
    | some pn =>
      match pn.children with
      | none => (t2, some .typeError)
      | some cs =>
          if id ∈ cs then (t2, none)
          else ({ t2 with nodes := t2.nodes.set p { pn with children := some (cs ++ [id]) } },
                none)

/-- `MarketTree.add`: upsert one node.  Preserves an existing node's
`children`, appends a ledger observation when the price is truthy, runs the
orphan-adoption backfill when a CATEGORY is written without a truthy price,
and registers the node in an existing parent's `children`.  Returns the
state reached together with the exception, if one is raised (membership in
an OFFER parent's `None` children is a TypeError). -/
def add (t : MarketTree) (node : NodeIn) : MarketTree × Option PyErr :=
  let id := node.id
  let parent_id := node.parent_id
  let child : Option (List Nat) := if node.type = .CATEGORY then some [] else none
  let preserved : Option (List Nat) :=
    match t.nodes.get? id with
    | some old => old.children
    | none => child
  let stored : Node :=
    ⟨node.id, node.name, node.parent_id, node.type, node.price, node.date, preserved⟩
  let t1 : MarketTree := { t with nodes := t.nodes.set id stored }
  let step2 : MarketTree × Option PyErr :=
    if truthy node.price then
      ({ t1 with price_by_id := add_price t1.price_by_id id node.date (node.price.getD 0) },
       none)
    else if node.type = .CATEGORY then
      match backfill_children id t1.nodes.entries preserved with
      | (_, some e) => (t1, some e)
      | (cs, none) => ({ t1 with nodes := t1.nodes.set id { stored with children := cs } }, none)
    else (t1, none)
  match step2 with
  | (t2, some e) => (t2, some e)
  | (t2, none) => register_in_parent t2 id parent_id

/-- `MarketTree.delete_node_by_id`: remove the node, unlinking it from an
existing parent's `children` first; an absent id returns `None`.
`children.remove(id)` on a `None` sentinel is an AttributeError and on a
list without `id` a ValueError. -/
def delete_node_by_id (t : MarketTree) (id : Nat) :
    Except PyErr (MarketTree × Option Node) :=
  match t.nodes.get? id with
  | none => .ok (t, none)
  | some node =>
    match node.parent_id with
    | none => .ok ({ t with nodes := t.nodes.erase id }, some node)
    | some parent_id =>
      match t.nodes.get? parent_id with
      | none => .ok ({ t with nodes := t.nodes.erase id }, some node)
      | some pn =>
        match pn.children with
        | none => .error .attributeError
        | some cs =>
            if id ∈ cs then
              .ok ({ t with nodes :=
                      (t.nodes.set parent_id { pn with children := some (cs.erase id) }).erase id },
                   some node)
            else .error .valueError

end MarketTree

namespace MarketTree

/-- The `for node_id in children` loop of `calculate_price_for_category`,
with the running `amount` and `count_items` accumulators; `rec` is the
recursive call into a child category. -/
def calculate_price_loop (rec : Dict Node → Nat → Except PyErr (Int × Int)) :
    Dict Node → List Nat → Int → Int → Except PyErr (Int × Int)
  | _, [], amount, count_items => .ok (amount, count_items)
  | nodes, c :: rest, amount, count_items =>
    match nodes.get? c with
    | none => .error .keyError
    | some cn =>
      match cn.type with
      | .OFFER =>
        match cn.price with
        | none => .error .typeError
        | some p => calculate_price_loop rec nodes rest (amount + p) (count_items + 1)
      | .CATEGORY =>
        match rec nodes c with
        | .error e => .error e
        | .ok (a, k) => calculate_price_loop rec nodes rest (amount + a) (count_items + k)

/-- `MarketTree.calculate_price_for_category`: recursive `(sum, count)` over
the descendant OFFERs of the category at `id`, bounded by fuel.  Iterating a
`None` children sentinel is a TypeError, adding a `None` price to the sum is
a TypeError, a dangling child id is a KeyError. -/
def calculate_price_for_category :
    Nat → Dict Node → Nat → Except PyErr (Int × Int)
  | 0, _, _ => .error .fuelOut
  | fuel + 1, nodes, id =>
    match nodes.get? id with
    | none => .error .keyError
    | some n =>
      match n.children with
      | none => .error .typeError
      | some cs => calculate_price_loop (calculate_price_for_category fuel) nodes cs 0 0

/-- The `for node_id in children` loop of `calculate_date_for_category`,
with the running maximum `date`; `rec` is the recursive call into a child
category. -/
def calculate_date_loop (rec : Dict Node → Nat → Except PyErr Int) :
    Dict Node → List Nat → Int → Except PyErr Int
  | _, [], date => .ok date
  | nodes, c :: rest, date =>
    match nodes.get? c with
    | none => .error .keyError
    | some cn =>
      match cn.type with
      | .OFFER => calculate_date_loop rec nodes rest (if cn.date > date then cn.date else date)
      | .CATEGORY =>
        match rec nodes c with
        | .error e => .error e
        | .ok new_date =>
            calculate_date_loop rec nodes rest (if new_date > date then new_date else date)

/-- `MarketTree.calculate_date_for_category`: recursive maximum of
`lastUpdate` over the category node itself and its transitive subtree,
bounded by fuel. -/
def calculate_date_for_category :
    Nat → Dict Node → Nat → Except PyErr Int
  | 0, _, _ => .error .fuelOut
  | fuel + 1, nodes, id =>
    match nodes.get? id with
    | none => .error .keyError
    | some n =>
      match n.children with
      | none => .error .typeError
      | some cs => calculate_date_loop (calculate_date_for_category fuel) nodes cs n.date

end MarketTree

/-- A display-ready view as built by `MarketTree.get_nodes`: the node's
fields with the computed price and a recursively built, id-sorted children
list for a CATEGORY. -/
inductive ViewNode where
  | mk (date : Int) (id : Nat) (name : String) (parentId : Option Nat)
       (type : NodeType) (price : Option Int) (children : Option (List ViewNode))

/-- The computed `price` field of a view. -/
def ViewNode.price : ViewNode → Option Int
  | .mk _ _ _ _ _ p _ => p

/-- The `id` field of a view. -/
def ViewNode.id : ViewNode → Nat
  | .mk _ i _ _ _ _ _ => i

namespace MarketTree

/-- The sorted-children list comprehension of `get_nodes`; `rec` is the
recursive view build for one child, and a dangling child id is a
KeyError. -/
def get_nodes_children (rec : Dict Node → Node → Except PyErr ViewNode) :
    Dict Node → List Nat → Except PyErr (List ViewNode)
  | _, [] => .ok []
  | nodes, c :: rest =>
    match nodes.get? c with
    | none => .error .keyError
    | some cn =>
      match rec nodes cn with
      | .error e => .error e
      | .ok v =>
        match get_nodes_children rec nodes rest with
        | .error e => .error e
        | .ok vs => .ok (v :: vs)

/-- `MarketTree.get_nodes`: build the view of one node.  For a CATEGORY it
computes the subtree `(amount, count)`, builds the children views sorted by
child id, then reports `amount // count` — a ZeroDivisionError when the
category has no descendant OFFERs — and the subtree's maximal date. -/
def get_nodes : Nat → Dict Node → Node → Except PyErr ViewNode
  | 0, _, _ => .error .fuelOut
  | fuel + 1, nodes, node =>
    match node.children with
    | none =>
        .ok (.mk (convert_date node.date) node.id node.name node.parent_id node.type
              node.price none)
    | some cs =>
      match calculate_price_for_category (fuel + 1) nodes node.id with
      | .error e => .error e
      | .ok (amount, count) =>
        match get_nodes_children (get_nodes fuel) nodes (List.insertionSort (· ≤ ·) cs) with
        | .error e => .error e
        | .ok views =>
            if count = 0 then .error .zeroDivision
            else
              match calculate_date_for_category (fuel + 1) nodes node.id with
              | .error e => .error e
              | .ok d =>
                  .ok (.mk (convert_date d) node.id node.name node.parent_id node.type
                        (some (Int.fdiv amount count)) (some views))

end MarketTree

/-- One entry of a `get_sales` response. -/
structure SaleEntry where
  id : Nat
  name : String
  date : Int
  parentId : Option Nat
  price : Int
  type : NodeType
  deriving DecidableEq, Repr

/-- The qualifying test of `get_sales`: `(date - node_date).days <= 1`,
`timedelta.days` being floor division of the elapsed seconds by 86400. -/
def days_le_one (date node_date : Int) : Bool :=
  Int.fdiv (date - node_date) 86400 ≤ 1

/-- One entry of a statistics response. -/
structure StatEntry where
  id : Nat
  name : String
  date : Int
  parentId : Option Nat
  price : Option Int
  type : NodeType
  deriving DecidableEq, Repr

/-- The four-branch date-window test of `get_statistic_by_id`, collapsed
over datetime truthiness (a `datetime` is always truthy, so the branch
conditions test presence): closed-closed interval, absent bound unbounded. -/
def statRange (start_date end_date : Option Int) (node_date : Int) : Bool :=
  match start_date, end_date with
  | some s, some e => decide (s ≤ node_date ∧ node_date ≤ e)
  | some s, none => decide (s ≤ node_date)
  | none, some e => decide (node_date ≤ e)
  | none, none => true

namespace MarketTree

/-- The per-offer body of the `get_sales` loop over `self.price_by_id`:
sort the history descending, take the first observation within the
truncated-day window, and surface it with the offer's identity fields
(`self.nodes[id]` is a KeyError for a dangling ledger id). -/
def get_sales_go (nodes : Dict Node) (date : Int) :
    List (Nat × List (Int × Int)) → Except PyErr (List SaleEntry)
  | [] => .ok []
  | (id, hist) :: rest =>
    match (sortDesc hist).find? (fun o => days_le_one date o.1) with
    | none => get_sales_go nodes date rest
    | some o =>
      match nodes.get? id with
      | none => .error .keyError
      | some node =>
        match get_sales_go nodes date rest with
        | .error e => .error e
        | .ok items =>
            .ok (⟨node.id, node.name, convert_date o.1, node.parent_id, o.2, node.type⟩ :: items)

/-- `MarketTree.get_sales`: the offers whose price was updated within the
truncated-day window ending at `date`, at most one entry per offer. -/
def get_sales (t : MarketTree) (date : Int) : Except PyErr (List SaleEntry) :=
  get_sales_go t.nodes date t.price_by_id.entries

/-- `MarketTree.get_statistic_by_id`: for an OFFER, its ledger history
sorted ascending and filtered by the date window (`self.price_by_id[id]` is
a KeyError when the offer has no history); for a CATEGORY, at most one
synthetic entry with the subtree aggregate price and date. -/
def get_statistic_by_id (t : MarketTree) (id : Nat)
    (start_date end_date : Option Int) : Except PyErr (List StatEntry) :=
  match t.nodes.get? id with
  | none => .error .keyError
  | some node =>
    match node.type with
    | .OFFER =>
      match t.price_by_id.get? id with
      | none => .error .keyError
      | some hist =>
          .ok (((sortAsc hist).filter (fun o => statRange start_date end_date o.1)).map
            (fun o => ⟨id, node.name, o.1, node.parent_id, some o.2, node.type⟩))
    | .CATEGORY =>
      match calculate_date_for_category (t.nodes.length + 1) t.nodes id with
      | .error e => .error e
      | .ok node_date =>
        match calculate_price_for_category (t.nodes.length + 1) t.nodes id with
        | .error e => .error e
        | .ok (amount, count_items) =>
          let node_price : Option Int :=
            if count_items = 0 then none else some (Int.fdiv amount count_items)
          if statRange start_date end_date node_date then
            .ok [⟨id, node.name, node_date, node.parent_id, node_price, node.type⟩]
          else .ok []

end MarketTree

/-- One item of a `ShopUnitImportRequest` (`analyzer/api/schema.py`):
the fields as validated upstream, without the batch date. -/
structure ShopUnitImport where
  id : Nat
  name : String
  parent_id : Option Nat
  type : NodeType
  price : Option Int
  deriving DecidableEq, Repr

/-- `item.dict() | {"date": date}`: the dict handed to `MarketTree.add`. -/
def to_node (item : ShopUnitImport) (date : Int) : NodeIn :=
  ⟨item.id, item.name, item.parent_id, item.type, item.price, date⟩

/-- A key of a CPython container as compared by `in`: either one of the
string field names of a node dict or a UUID.  Equality across the two
constructors is false, as `UUID.__eq__` is false on non-UUID values. -/
inductive PyKey where
  | field (s : String)
  | uuid (u : Nat)
  deriving DecidableEq, BEq

/-- The keys of a stored node dict, in insertion order: the import fields,
the batch date and the children slot. -/
def node_dict_keys : List PyKey :=
  [.field "id", .field "name", .field "parent_id", .field "type",
   .field "price", .field "date", .field "children"]

/-- The guard `id in tree.nodes[id]` of `delete_item_by_id` in
`analyzer/api/app.py`: membership of the UUID among the string keys of the
node's own dict. -/
def uuid_in_node_dict (id : Nat) : Bool :=
  node_dict_keys.contains (.uuid id)

namespace App

/-- The `/imports` handler `load_items`: apply the batch items in order
with the shared `updateDate`; an OFFER without a price is a 400
ValidationFailed raised before that item touches the tree, leaving the
items already applied in place.  (The durable-store writes are external
collaborators and carry no state observed by the core.) -/
def load_items : MarketTree → List ShopUnitImport → Int → MarketTree × Option PyErr
  | t, [], _ => (t, none)
  | t, item :: rest, date =>
    if item.type = NodeType.OFFER ∧ item.price = none then (t, some .validationFailed)
    else
      match MarketTree.add t (to_node item date) with
      | (t1, some e) => (t1, some e)
      | (t1, none) => load_items t1 rest date

/-- The `/delete/{id}` handler `delete_item_by_id`.  The not-found check
queries the durable store, a write-only mirror of the Tree, so it is
modelled as membership in the Tree.  The ledger-discard guard is the
source's `id in tree.nodes[id]`, membership of the UUID among the node
dict's string keys. -/
def delete_item_by_id (t : MarketTree) (id : Nat) : Except PyErr MarketTree :=
  match t.nodes.get? id with
  | none => .error .notFound
  | some n =>
    let discard : Bool := uuid_in_node_dict id && decide (n.type = NodeType.OFFER)
    match (if discard then t.delete_price_by_id id else .ok t) with
    | .error e => .error e
    | .ok t1 =>
      match t1.delete_node_by_id id with
      | .error e => .error e
      | .ok (t2, _) => .ok t2

/-- The `/nodes/{id}` handler `get_nodes_by_id`: 404 for an absent id, else
the recursively aggregated view. -/
def get_nodes_by_id (t : MarketTree) (id : Nat) : Except PyErr ViewNode :=
  match t.nodes.get? id with
  | none => .error .notFound
  | some n => MarketTree.get_nodes (t.nodes.length + 1) t.nodes n

/-- The `/node/{id}/statistic` handler `get_statistic_by_id`: 400 when both
bounds are present with `dateEnd < dateStart` (checked before anything
else), 404 for an absent id, else the tree statistics. -/
def get_statistic_by_id (t : MarketTree) (id : Nat)
    (dateStart dateEnd : Option Int) : Except PyErr (List StatEntry) :=
  if (match dateStart, dateEnd with
      | some s, some e => decide (e < s)
      | _, _ => false) then .error .validationFailed
  else if t.nodes.contains id = false then .error .notFound
  else t.get_statistic_by_id id dateStart dateEnd

/-- The `/sales` handler `get_sales`. -/
def get_sales (t : MarketTree) (date : Int) : Except PyErr (List SaleEntry) :=
  t.get_sales date

end App

/-- The per-child traversal of `descendant_offer_prices`; `rec` is the
recursive collection from a child category. -/
def descendant_offer_prices_loop (rec : Dict Node → Nat → Except PyErr (List Int)) :
    Dict Node → List Nat → Except PyErr (List Int)
  | _, [] => .ok []
  | nodes, c :: rest =>
    match nodes.get? c with
    | none => .error .keyError
    | some cn =>
      match cn.type with
      | .OFFER =>
        match cn.price with
        | none => .error .typeError
        | some p =>
          match descendant_offer_prices_loop rec nodes rest with
          | .error e => .error e
          | .ok l => .ok (p :: l)
      | .CATEGORY =>
        match rec nodes c with
        | .error e => .error e
        | .ok l1 =>
          match descendant_offer_prices_loop rec nodes rest with
          | .error e => .error e
          | .ok l2 => .ok (l1 ++ l2)

/-- Modelled from the spec: the prices of all descendant OFFERs of a
category, in traversal order — the list whose sum and length the spec's
phrase "integer-division average price of all descendant OFFERs" divides.
It mirrors the recursion shape of `calculate_price_for_category` so the two
can be compared. -/
def descendant_offer_prices : Nat → Dict Node → Nat → Except PyErr (List Int)
  | 0, _, _ => .error .fuelOut
  | fuel + 1, nodes, id =>
    match nodes.get? id with
    | none => .error .keyError
    | some n =>
      match n.children with
      | none => .error .typeError
      | some cs => descendant_offer_prices_loop (descendant_offer_prices fuel) nodes cs



namespace Dict

/-- Keys are pairwise distinct, as in every CPython dict. -/
def NodupKeys {α : Type} (d : Dict α) : Prop :=
  (List.map Prod.fst (d.entries)).Nodup

theorem get?_nil {α : Type} (k : Nat) : (([] : Dict α)).get? k = none := rfl

theorem get?_cons {α : Type} (k₀ : Nat) (v₀ : α) (tl : Dict α) (k : Nat) :
    Dict.get? ((k₀, v₀) :: tl) k = if k₀ = k then some v₀ else Dict.get? tl k := rfl

theorem set_nil {α : Type} (k : Nat) (v : α) : Dict.set ([] : Dict α) k v = [(k, v)] := rfl

theorem set_cons {α : Type} (k₀ : Nat) (v₀ : α) (tl : Dict α) (k : Nat) (v : α) :
    Dict.set ((k₀, v₀) :: tl) k v =
      if k₀ = k then (k, v) :: tl else (k₀, v₀) :: Dict.set tl k v := rfl

theorem erase_nil {α : Type} (k : Nat) : Dict.erase ([] : Dict α) k = [] := rfl

theorem erase_cons {α : Type} (k₀ : Nat) (v₀ : α) (tl : Dict α) (k : Nat) :
    Dict.erase ((k₀, v₀) :: tl) k =
      if k₀ = k then tl else (k₀, v₀) :: Dict.erase tl k := rfl

theorem entries_def {α : Type} (d : Dict α) : d.entries = d := rfl

theorem get?_set_self {α : Type} (d : Dict α) (k : Nat) (v : α) :
    (d.set k v).get? k = some v := by
  induction d with
  | nil => rw [set_nil, get?_cons, if_pos rfl]
  | cons hd tl ih =>
      obtain ⟨k₀, v₀⟩ := hd
      by_cases h : k₀ = k
      · subst h; rw [set_cons, if_pos rfl, get?_cons, if_pos rfl]
      · rw [set_cons, if_neg h, get?_cons, if_neg h]; exact ih

theorem get?_set_ne {α : Type} (d : Dict α) (k k' : Nat) (v : α) (h : k' ≠ k) :
    (d.set k v).get? k' = d.get? k' := by
  induction d with
  | nil => rw [set_nil, get?_cons, if_neg (Ne.symm h)]
  | cons hd tl ih =>
      obtain ⟨k₀, v₀⟩ := hd
      by_cases hk : k₀ = k
      · subst hk
        rw [set_cons, if_pos rfl, get?_cons, if_neg (Ne.symm h), get?_cons,
          if_neg (Ne.symm h)]
      · rw [set_cons, if_neg hk, get?_cons, get?_cons]
        by_cases hk' : k₀ = k'
        · rw [if_pos hk', if_pos hk']
        · rw [if_neg hk', if_neg hk']; exact ih

theorem get?_eq_none_of_not_mem {α : Type} (d : Dict α) (k : Nat)
    (h : k ∉ List.map Prod.fst d.entries) : d.get? k = none := by
  induction d with
  | nil => rfl
  | cons hd tl ih =>
      obtain ⟨k₀, v₀⟩ := hd
      have hk : k₀ ≠ k := fun hh => h (by rw [entries_def, List.map_cons, hh]; exact List.mem_cons_self _ _)
      rw [get?_cons, if_neg hk]
      exact ih (fun hm => h (by rw [entries_def, List.map_cons]; exact List.mem_cons_of_mem _ hm))

theorem get?_erase_ne {α : Type} (d : Dict α) (k k' : Nat) (h : k' ≠ k) :
    (d.erase k).get? k' = d.get? k' := by
  induction d with
  | nil => rw [erase_nil]
  | cons hd tl ih =>
      obtain ⟨k₀, v₀⟩ := hd
      by_cases hk : k₀ = k
      · subst hk
        rw [erase_cons, if_pos rfl, get?_cons, if_neg (Ne.symm h)]
      · rw [erase_cons, if_neg hk, get?_cons, get?_cons]
        by_cases hk' : k₀ = k'
        · rw [if_pos hk', if_pos hk']
        · rw [if_neg hk', if_neg hk']; exact ih

theorem nodup_cons_split {α : Type} (k₀ : Nat) (v₀ : α) (tl : Dict α)
    (hnd : NodupKeys ((k₀, v₀) :: tl)) :
    k₀ ∉ List.map Prod.fst tl ∧ NodupKeys tl := by
  have h : (k₀ :: List.map Prod.fst tl).Nodup := hnd
  exact ⟨(List.nodup_cons.mp h).1, (List.nodup_cons.mp h).2⟩

theorem get?_erase_self {α : Type} (d : Dict α) (k : Nat) (hnd : NodupKeys d) :
    (d.erase k).get? k = none := by
  induction d with
  | nil => rfl
  | cons hd tl ih =>
      obtain ⟨k₀, v₀⟩ := hd
      obtain ⟨hmem, hnd'⟩ := nodup_cons_split k₀ v₀ tl hnd
      by_cases hk : k₀ = k
      · subst hk
        rw [erase_cons, if_pos rfl]
        exact get?_eq_none_of_not_mem tl k₀ hmem
      · rw [erase_cons, if_neg hk, get?_cons, if_neg hk]
        exact ih hnd'

theorem get?_mem {α : Type} (d : Dict α) (k : Nat) (v : α)
    (h : d.get? k = some v) : (k, v) ∈ d.entries := by
  induction d with
  | nil => exact absurd h (fun hh => Option.noConfusion hh)
  | cons hd tl ih =>
      obtain ⟨k₀, v₀⟩ := hd
      rw [entries_def]
      by_cases hk : k₀ = k
      · subst hk
        rw [get?_cons, if_pos rfl] at h
        have : v₀ = v := Option.some.inj h
        subst this
        exact List.mem_cons_self _ _
      · rw [get?_cons, if_neg hk] at h
        exact List.mem_cons_of_mem _ (ih h)

theorem get?_of_mem_nodup {α : Type} (d : Dict α) (k : Nat) (v : α)
    (hnd : NodupKeys d) (h : (k, v) ∈ d.entries) : d.get? k = some v := by
  induction d with
  | nil => exact absurd h (by rw [entries_def]; exact List.not_mem_nil _)
  | cons hd tl ih =>
      obtain ⟨k₀, v₀⟩ := hd
      obtain ⟨hmem, hnd'⟩ := nodup_cons_split k₀ v₀ tl hnd
      rw [entries_def] at h
      rcases List.mem_cons.mp h with heq | hmem'
      · injection heq with h1 h2
        subst h1; subst h2
        rw [get?_cons, if_pos rfl]
      · have hk : k₀ ≠ k := by
          intro hh
          subst hh
          exact hmem (List.mem_map_of_mem Prod.fst hmem')
        rw [get?_cons, if_neg hk]
        exact ih hnd' hmem'

theorem contains_of_get? {α : Type} (d : Dict α) (k : Nat) (v : α)
    (h : d.get? k = some v) : d.contains k = true := by
  unfold Dict.contains
  rw [h]
  rfl

theorem contains_false_iff {α : Type} (d : Dict α) (k : Nat) :
    d.contains k = false ↔ d.get? k = none := by
  unfold Dict.contains
  cases h : d.get? k <;> simp

end Dict

/-- In a descending-sorted history, the first observation satisfying a
predicate has a timestamp at least as large as every satisfying
observation: it is the most recent qualifying one. -/
theorem find?_desc_dominates (q : Int × Int → Bool) :
    ∀ (l : List (Int × Int)), List.Sorted tsGE l → ∀ o, l.find? q = some o →
      ∀ o' ∈ l, q o' = true → o'.1 ≤ o.1 := by
  intro l
  induction l with
  | nil => intro _ o hf; simp at hf
  | cons x xs ih =>
      intro hs o hf o' ho' hq
      obtain ⟨hdom, hs'⟩ := List.sorted_cons.mp hs
      cases hqx : q x with
      | true =>
          rw [List.find?_cons_of_pos _ hqx] at hf
          have hxo : x = o := Option.some.inj hf
          subst hxo
          rcases List.mem_cons.mp ho' with rfl | hmem
          · exact le_refl _
          · exact hdom o' hmem
      | false =>
          rw [List.find?_cons_of_neg _ (by rw [hqx]; exact Bool.false_ne_true)] at hf
          rcases List.mem_cons.mp ho' with rfl | hmem
          · rw [hqx] at hq; exact absurd hq (by simp)
          · exact ih hs' o hf o' hmem hq

/-- The date-window test of the statistics query, in the spec's terms:
closed-closed interval with an absent bound unbounded on its side. -/
theorem statRange_iff (sd ed : Option Int) (d : Int) :
    statRange sd ed d = true ↔
      ((∀ s, sd = some s → s ≤ d) ∧ (∀ e, ed = some e → d ≤ e)) := by
  cases sd <;> cases ed <;> simp [statRange]

/-- The day-granularity window of `get_sales`, in elapsed seconds:
`dayDifference <= 1` admits every observation less than 48 hours old
(and every future-dated observation). -/
theorem days_le_one_iff (asOf d : Int) :
    days_le_one asOf d = true ↔ asOf - d < 172800 := by
  unfold days_le_one
  rw [Int.fdiv_eq_ediv _ (by norm_num : (0:Int) ≤ 86400)]
  simp only [decide_eq_true_eq]
  omega

/-- The tree after importing one OFFER `1` with price 100 at time 0. -/
def c1_tree : MarketTree :=
  (App.load_items ⟨[], []⟩ [⟨1, "o1", none, NodeType.OFFER, some 100⟩] 0).1

/-- The state `delete_item_by_id` leaves behind on `c1_tree`: the node is
gone but the ledger history survives. -/
def c1_deleted : MarketTree := ⟨[], [(1, [(0, 100)])]⟩

/-- C1: the claimed behaviour — DeleteById first discards the offer's
Ledger history — does not happen.  The guard `id in tree.nodes[id]`
compares the UUID against the node dict's string field keys and is false
for every id, so a successful delete of offer `1` leaves its history in
`price_by_id`; the subsequent `GetStatistics` does fail with NotFound, but
`GetRecentSales` then crashes with a KeyError on the dangling ledger entry
instead of simply omitting the offer. -/
theorem c1_delete_leaves_ledger_dangling :
    (∀ id, uuid_in_node_dict id = false) ∧
    (App.load_items ⟨[], []⟩ [⟨1, "o1", none, NodeType.OFFER, some 100⟩] 0).2 = none ∧
    (∃ t2, App.delete_item_by_id c1_tree 1 = .ok t2 ∧
      t2.nodes.get? 1 = none ∧
      t2.price_by_id.get? 1 = some [(0, 100)] ∧
      App.get_statistic_by_id t2 1 none none = .error .notFound ∧
      t2.get_sales 0 = .error .keyError) :=
  ⟨fun _ => rfl, rfl, c1_deleted, rfl, rfl, rfl, rfl, rfl⟩

/-- The tree after importing one empty CATEGORY `1` at time 0. -/
def c2_tree : MarketTree :=
  (App.load_items ⟨[], []⟩ [⟨1, "c1", none, NodeType.CATEGORY, none⟩] 0).1

/-- C2 counterexample: for a CATEGORY with zero descendant OFFERs the claim
says the price reported by `GetView` is null, but `get_nodes` computes
`amount // count` with `count = 0` and fails with a ZeroDivisionError;
only the statistics branch reports the null price. -/
theorem c2_counterexample :
    (App.load_items ⟨[], []⟩ [⟨1, "c1", none, NodeType.CATEGORY, none⟩] 0).2 = none ∧
    App.get_nodes_by_id c2_tree 1 = .error .zeroDivision ∧
    c2_tree.get_statistic_by_id 1 none none =
      .ok [⟨1, "c1", 0, none, none, NodeType.CATEGORY⟩] :=
  ⟨rfl, rfl, rfl⟩

/-- The tree after importing one OFFER `1` with price 0 at time 0: the
batch passes validation, but no ledger history is created. -/
def c7_tree : MarketTree :=
  (App.load_items ⟨[], []⟩ [⟨1, "o1", none, NodeType.OFFER, some 0⟩] 0).1

/-- C7 counterexample: an id present in the Tree, no validation failure,
yet `GetStatistics` neither fails with ValidationFailed/NotFound nor
returns a list — the OFFER was imported with price 0, got no Ledger
history, and `self.price_by_id[id]` raises a KeyError. -/
theorem c7_counterexample :
    (App.load_items ⟨[], []⟩ [⟨1, "o1", none, NodeType.OFFER, some 0⟩] 0).2 = none ∧
    c7_tree.nodes.contains 1 = true ∧
    App.get_statistic_by_id c7_tree 1 none none = .error .keyError :=
  ⟨rfl, rfl, rfl⟩

/-- C10: ledger appends are decided by truthiness, not presence.  An OFFER
upserted with `price = 0` passes the bulk-upsert validation (its price is
not absent), yet `if node["price"]` is falsy so no Ledger observation is
appended, and a subsequent `GetStatistics` on the offer reaches
`self.price_by_id[id]` and fails with a KeyError instead of returning an
empty history. -/
theorem c10_price_zero_breaks_statistics (t : MarketTree) (item : ShopUnitImport)
    (date : Int)
    (htype : item.type = NodeType.OFFER) (hprice : item.price = some 0)
    (hpar : item.parent_id = none) (hnew : t.nodes.get? item.id = none)
    (hhist : t.price_by_id.get? item.id = none) :
    App.load_items t [item] date =
      ({ nodes := t.nodes.set item.id
           ⟨item.id, item.name, none, NodeType.OFFER, some 0, date, none⟩,
         price_by_id := t.price_by_id }, none) ∧
    (t.nodes.set item.id
        ⟨item.id, item.name, none, NodeType.OFFER, some 0, date, none⟩).get? item.id =
      some ⟨item.id, item.name, none, NodeType.OFFER, some 0, date, none⟩ ∧
    MarketTree.get_statistic_by_id
      { nodes := t.nodes.set item.id
           ⟨item.id, item.name, none, NodeType.OFFER, some 0, date, none⟩,
        price_by_id := t.price_by_id } item.id none none = .error .keyError := by
  obtain ⟨iid, iname, ipar, ity, ipr⟩ := item
  simp only [ShopUnitImport.type] at htype
  simp only [ShopUnitImport.price] at hprice
  simp only [ShopUnitImport.parent_id] at hpar
  simp only [ShopUnitImport.id] at hnew hhist
  subst htype; subst hprice; subst hpar
  have hload : App.load_items t [⟨iid, iname, none, NodeType.OFFER, some 0⟩] date =
      ({ nodes := t.nodes.set iid ⟨iid, iname, none, NodeType.OFFER, some 0, date, none⟩,
         price_by_id := t.price_by_id }, none) := by
    unfold App.load_items
    simp only [reduceCtorEq, and_false, if_false, if_neg]
    unfold MarketTree.add to_node MarketTree.register_in_parent
    simp only [hnew, truthy]
    simp [App.load_items]
  refine ⟨hload, Dict.get?_set_self _ _ _, ?_⟩
  unfold MarketTree.get_statistic_by_id
  rw [Dict.get?_set_self]
  simp only [hhist]

/-- The node stored by importing offer `1` with price 0 at time 0. -/
def c10_node : Node := ⟨1, "o1", none, NodeType.OFFER, some 0, 0, none⟩

/-- C10 witness: the offer `1` imported with price 0 at time 0 into the
empty tree. -/
theorem c10_witness :
    App.load_items ⟨[], []⟩ [⟨1, "o1", none, NodeType.OFFER, some 0⟩] 0 =
      ({ nodes := Dict.set ([] : Dict Node) 1 c10_node, price_by_id := [] }, none) ∧
    (Dict.set ([] : Dict Node) 1 c10_node).get? 1 = some c10_node ∧
    MarketTree.get_statistic_by_id
      { nodes := Dict.set ([] : Dict Node) 1 c10_node, price_by_id := [] }
      1 none none = .error .keyError :=
  c10_price_zero_breaks_statistics ⟨[], []⟩ ⟨1, "o1", none, NodeType.OFFER, some 0⟩ 0
    rfl rfl rfl rfl rfl

/-- C7 (amended): `GetStatistics` fails with ValidationFailed whenever both
bounds are present and `end < start` (for any id, checked first), fails
with NotFound whenever the id is absent; for a present OFFER **with Ledger
history** it returns a (possibly empty) list, for a present OFFER without
Ledger history it instead fails with a runtime KeyError, and for a present
CATEGORY whose subtree aggregation succeeds it returns a list. -/
theorem c7_statistics_errors :
    (∀ (t : MarketTree) (id : Nat) (s e : Int), e < s →
       App.get_statistic_by_id t id (some s) (some e) = .error .validationFailed) ∧
    (∀ (t : MarketTree) (id : Nat) (sd ed : Option Int),
       (∀ s e, sd = some s → ed = some e → ¬ e < s) →
       t.nodes.contains id = false →
       App.get_statistic_by_id t id sd ed = .error .notFound) ∧
    (∀ (t : MarketTree) (id : Nat) (sd ed : Option Int) (n : Node)
       (hist : List (Int × Int)),
       (∀ s e, sd = some s → ed = some e → ¬ e < s) →
       t.nodes.get? id = some n → n.type = NodeType.OFFER →
       t.price_by_id.get? id = some hist →
       ∃ items, App.get_statistic_by_id t id sd ed = .ok items) ∧
    (∀ (t : MarketTree) (id : Nat) (sd ed : Option Int) (n : Node),
       (∀ s e, sd = some s → ed = some e → ¬ e < s) →
       t.nodes.get? id = some n → n.type = NodeType.OFFER →
       t.price_by_id.get? id = none →
       App.get_statistic_by_id t id sd ed = .error .keyError) ∧
    (∀ (t : MarketTree) (id : Nat) (sd ed : Option Int) (n : Node) (d a c : Int),
       (∀ s e, sd = some s → ed = some e → ¬ e < s) →
       t.nodes.get? id = some n → n.type = NodeType.CATEGORY →
       MarketTree.calculate_date_for_category (t.nodes.length + 1) t.nodes id = .ok d →
       MarketTree.calculate_price_for_category (t.nodes.length + 1) t.nodes id = .ok (a, c) →
       ∃ items, App.get_statistic_by_id t id sd ed = .ok items) := by
  have hfalse : ∀ (sd ed : Option Int), (∀ s e, sd = some s → ed = some e → ¬ e < s) →
      (match sd, ed with
       | some s, some e => decide (e < s)
       | _, _ => false) = false := by
    intro sd ed h
    cases sd with
    | none => cases ed <;> rfl
    | some s =>
        cases ed with
        | none => rfl
        | some e => simpa using h s e rfl rfl
  refine ⟨?_, ?_, ?_, ?_, ?_⟩
  · intro t id s e h
    unfold App.get_statistic_by_id
    rw [if_pos (by simpa using h)]
  · intro t id sd ed hgood hc
    unfold App.get_statistic_by_id
    rw [if_neg (by rw [hfalse sd ed hgood]; exact Bool.false_ne_true), if_pos hc]
  · intro t id sd ed n hist hgood hn htype hh
    unfold App.get_statistic_by_id
    rw [if_neg (by rw [hfalse sd ed hgood]; exact Bool.false_ne_true),
      if_neg (by rw [Dict.contains_of_get? _ _ _ hn]; exact fun hh => Bool.noConfusion hh)]
    unfold MarketTree.get_statistic_by_id
    simp only [hn, htype, hh]
    exact ⟨_, rfl⟩
  · intro t id sd ed n hgood hn htype hh
    unfold App.get_statistic_by_id
    rw [if_neg (by rw [hfalse sd ed hgood]; exact Bool.false_ne_true),
      if_neg (by rw [Dict.contains_of_get? _ _ _ hn]; exact fun hh => Bool.noConfusion hh)]
    unfold MarketTree.get_statistic_by_id
    simp only [hn, htype, hh]
  · intro t id sd ed n d a c hgood hn htype hd hp
    unfold App.get_statistic_by_id
    rw [if_neg (by rw [hfalse sd ed hgood]; exact Bool.false_ne_true),
      if_neg (by rw [Dict.contains_of_get? _ _ _ hn]; exact fun hh => Bool.noConfusion hh)]
    unfold MarketTree.get_statistic_by_id
    simp only [hn, htype, hd, hp]
    cases hsr : statRange sd ed d
    · refine ⟨[], ?_⟩
      simp [hsr]
    · refine ⟨[⟨id, n.name, d, n.parent_id,
        if c = 0 then none else some (Int.fdiv a c), n.type⟩], ?_⟩
      simp [hsr, htype]

/-- C7 witness: the validation-failure clause at `start = 5 > end = 3` on
the empty tree, and the missing-history clause on the price-0 offer. -/
theorem c7_witness :
    App.get_statistic_by_id ⟨[], []⟩ 0 (some 5) (some 3) = .error .validationFailed ∧
    App.get_statistic_by_id c7_tree 1 none none = .error .keyError :=
  ⟨c7_statistics_errors.1 ⟨[], []⟩ 0 5 3 (by decide),
   c7_statistics_errors.2.2.2.1 c7_tree 1 none none c10_node
     (fun _ _ h => nomatch h) rfl rfl rfl⟩

/-- C8: bulk upsert is not atomic.  If the items before position `k` all
apply cleanly and the `k`-th item is the first OFFER lacking a price, the
request fails with ValidationFailed, the state is exactly the state after
applying the first `k-1` items, and the `k`-th and later items are never
applied. -/
theorem c8_bulk_upsert_not_atomic (t : MarketTree) (date : Int)
    (pre post : List ShopUnitImport) (bad : ShopUnitImport)
    (hpre : (App.load_items t pre date).2 = none)
    (htype : bad.type = NodeType.OFFER) (hprice : bad.price = none) :
    App.load_items t (pre ++ bad :: post) date =
      ((App.load_items t pre date).1, some PyErr.validationFailed) := by
  induction pre generalizing t with
  | nil =>
      unfold App.load_items
      simp [htype, hprice]
  | cons item rest ih =>
      rw [List.cons_append]
      unfold App.load_items at hpre ⊢
      by_cases hv : item.type = NodeType.OFFER ∧ item.price = none
      · rw [if_pos hv] at hpre
        exact absurd hpre (by simp)
      · simp only [if_neg hv] at hpre ⊢
        cases hadd : MarketTree.add t (to_node item date) with
        | mk t1 err =>
            simp only [hadd] at hpre ⊢
            cases err with
            | some e => simp at hpre
            | none => exact ih t1 hpre

/-- C8 witness: a batch of a valid offer followed by an OFFER without a
price: the first offer stays applied, the batch fails with
ValidationFailed. -/
theorem c8_witness :
    App.load_items ⟨[], []⟩
        [⟨1, "o1", none, NodeType.OFFER, some 5⟩,
         ⟨2, "o2", none, NodeType.OFFER, none⟩] 0 =
      ((App.load_items ⟨[], []⟩ [⟨1, "o1", none, NodeType.OFFER, some 5⟩] 0).1,
        some PyErr.validationFailed) :=
  c8_bulk_upsert_not_atomic ⟨[], []⟩ 0 [⟨1, "o1", none, NodeType.OFFER, some 5⟩] []
    ⟨2, "o2", none, NodeType.OFFER, none⟩ rfl rfl rfl

theorem Dict.mem_set_self {α : Type} (d : Dict α) (k : Nat) (v : α) :
    (k, v) ∈ (d.set k v).entries := by
  induction d with
  | nil => exact List.mem_cons_self _ _
  | cons hd tl ih =>
      obtain ⟨k₀, v₀⟩ := hd
      by_cases h : k₀ = k
      · subst h; rw [Dict.set_cons, if_pos rfl]; exact List.mem_cons_self _ _
      · rw [Dict.set_cons, if_neg h]; exact List.mem_cons_of_mem _ ih

/-- The backfill loop over a `None` children sentinel raises its TypeError
as soon as some entry's parent matches. -/
theorem backfill_none_of_match (id : Nat) :
    ∀ entries : List (Nat × Node), (∃ q ∈ entries, q.2.parent_id = some id) →
      MarketTree.backfill_children id entries none = (none, some PyErr.typeError) := by
  intro entries
  induction entries with
  | nil => rintro ⟨q, hq, _⟩; exact absurd hq (List.not_mem_nil q)
  | cons hd tl ih =>
      rintro ⟨q, hq, hmatch⟩
      obtain ⟨nid, ninfo⟩ := hd
      unfold MarketTree.backfill_children
      by_cases hpm : ninfo.parent_id = some id
      · rw [if_pos hpm]
      · rw [if_neg hpm]
        apply ih
        rcases List.mem_cons.mp hq with rfl | hmem
        · exact absurd hmatch hpm
        · exact ⟨q, hmem, hmatch⟩

/-- The only exception the backfill loop can raise is its TypeError. -/
theorem backfill_no_other_error (id : Nat) :
    ∀ (entries : List (Nat × Node)) (cs cs' : Option (List Nat)) (e : PyErr),
      MarketTree.backfill_children id entries cs = (cs', some e) →
      e = PyErr.typeError := by
  intro entries
  induction entries with
  | nil =>
      intro cs cs' e h
      unfold MarketTree.backfill_children at h
      exact absurd h (by intro hh; injection hh with _ h2; exact Option.noConfusion h2)
  | cons hd tl ih =>
      intro cs cs' e h
      obtain ⟨nid, ninfo⟩ := hd
      unfold MarketTree.backfill_children at h
      by_cases hpm : ninfo.parent_id = some id
      · rw [if_pos hpm] at h
        cases cs with
        | none =>
            injection h with _ h2
            exact (Option.some.inj h2).symm
        | some l =>
            dsimp only at h
            by_cases hin : nid ∈ l
            · rw [if_pos hin] at h; exact ih _ _ _ h
            · rw [if_neg hin] at h; exact ih _ _ _ h
      · rw [if_neg hpm] at h; exact ih _ _ _ h

/-- C9: Upsert is not total.  If `parentId` names an id present in the Tree
as an OFFER (children sentinel `None`, per invariant I1), `add` reaches a
membership test on that `None` and fails with a TypeError; conversely a
completed `add` guarantees the named parent, when present, is a
CATEGORY. -/
theorem c9_upsert_not_total (t : MarketTree) (node : NodeIn)
    (hI1 : ∀ k kn, t.nodes.get? k = some kn →
        (kn.children = none ↔ kn.type = NodeType.OFFER)) :
    (∀ p pn, node.parent_id = some p → t.nodes.get? p = some pn →
        pn.type = NodeType.OFFER → (t.add node).2 = some PyErr.typeError) ∧
    ((t.add node).2 = none →
        ∀ p pn, node.parent_id = some p → t.nodes.get? p = some pn →
          pn.type = NodeType.CATEGORY) := by
  have main : ∀ p pn, node.parent_id = some p → t.nodes.get? p = some pn →
      pn.children = none → (t.add node).2 = some PyErr.typeError := by
    intro p pn hpar hp hchn
    unfold MarketTree.add MarketTree.register_in_parent
    simp only [hpar]
    by_cases hid : p = node.id
    · subst hid
      simp only [hp, hchn]
      by_cases htr : truthy node.price = true
      · rw [if_pos htr]
        dsimp only
        rw [Dict.get?_set_self]
      · rw [if_neg htr]
        by_cases hnt : node.type = NodeType.CATEGORY
        · rw [if_pos hnt,
            backfill_none_of_match node.id _
              ⟨(node.id, _), Dict.mem_set_self _ node.id _, rfl⟩]
        · rw [if_neg hnt]
          dsimp only
          rw [Dict.get?_set_self]
    · have hid' : p ≠ node.id := hid
      by_cases htr : truthy node.price = true
      · rw [if_pos htr]
        dsimp only
        rw [Dict.get?_set_ne _ _ _ _ hid']
        simp only [hp, hchn]
      · rw [if_neg htr]
        by_cases hnt : node.type = NodeType.CATEGORY
        · rw [if_pos hnt]
          split
          · next t2 e heq =>
              split at heq
              · next fst e0 heq2 =>
                  injection heq with h1 h2
                  injection h2 with h3
                  rw [← h3, backfill_no_other_error _ _ _ _ _ heq2]
              · next cs0 heq2 =>
                  exact absurd heq
                    (by intro hh; injection hh with _ h2; exact Option.noConfusion h2)
          · next t2 heq =>
              split at heq
              · next fst e0 heq2 =>
                  exact absurd heq
                    (by intro hh; injection hh with _ h2; exact Option.noConfusion h2)
              · next cs0 heq2 =>
                  injection heq with h1 h2
                  rw [← h1]
                  dsimp only
                  rw [Dict.get?_set_ne _ _ _ _ hid', Dict.get?_set_ne _ _ _ _ hid']
                  simp only [hp, hchn]
        · rw [if_neg hnt]
          dsimp only
          rw [Dict.get?_set_ne _ _ _ _ hid']
          simp only [hp, hchn]
  refine ⟨fun p pn hpar hp htype => main p pn hpar hp ((hI1 p pn hp).mpr htype),
    fun hok p pn hpar hp => ?_⟩
  cases htype : pn.type with
  | CATEGORY => rfl
  | OFFER =>
      have h2 := main p pn hpar hp ((hI1 p pn hp).mpr htype)
      rw [hok] at h2
      exact Option.noConfusion h2

/-- A one-offer tree used to witness the OFFER-parent crash. -/
def c9_node : Node := ⟨1, "o1", none, NodeType.OFFER, some 100, 0, none⟩

/-- The tree holding only `c9_node`. -/
def c9_tree : MarketTree := ⟨[(1, c9_node)], []⟩

/-- C9 witness: upserting offer `2` with `parentId = 1`, where `1` is an
OFFER, raises the TypeError. -/
theorem c9_witness :
    (MarketTree.add c9_tree ⟨2, "o2", some 1, NodeType.OFFER, some 5, 7⟩).2 =
      some PyErr.typeError := by
  have hI1 : ∀ k kn, c9_tree.nodes.get? k = some kn →
      (kn.children = none ↔ kn.type = NodeType.OFFER) := by
    intro k kn h
    simp only [c9_tree] at h
    rw [Dict.get?_cons] at h
    by_cases hk : (1 : Nat) = k
    · rw [if_pos hk] at h
      cases Option.some.inj h
      exact ⟨fun _ => rfl, fun _ => rfl⟩
    · rw [if_neg hk] at h
      exact Option.noConfusion h
  exact (c9_upsert_not_total c9_tree ⟨2, "o2", some 1, NodeType.OFFER, some 5, 7⟩ hI1).1
    1 c9_node rfl rfl rfl

theorem Dict.mem_keys_set {α : Type} (d : Dict α) (k : Nat) (v : α) (a : Nat)
    (h : a ∈ List.map Prod.fst ((d.set k v).entries)) :
    a ∈ List.map Prod.fst d.entries ∨ a = k := by
  induction d with
  | nil =>
      rcases List.mem_map.mp h with ⟨q, hq, rfl⟩
      rcases List.mem_singleton.mp hq with rfl
      exact Or.inr rfl
  | cons hd tl ih =>
      obtain ⟨k₀, v₀⟩ := hd
      by_cases hk : k₀ = k
      · subst hk
        rw [Dict.set_cons, if_pos rfl] at h
        rcases List.mem_map.mp h with ⟨q, hq, rfl⟩
        rcases List.mem_cons.mp hq with rfl | hmem
        · exact Or.inr rfl
        · exact Or.inl (by
            rw [entries_def, List.map_cons]
            exact List.mem_cons_of_mem _ (List.mem_map_of_mem _ hmem))
      · rw [Dict.set_cons, if_neg hk] at h
        rcases List.mem_map.mp h with ⟨q, hq, rfl⟩
        rcases List.mem_cons.mp hq with rfl | hmem
        · exact Or.inl (by
            rw [entries_def, List.map_cons]
            exact List.mem_cons_self _ _)
        · rcases ih (List.mem_map_of_mem _ hmem) with h1 | h1
          · exact Or.inl (by
              rw [entries_def, List.map_cons]
              exact List.mem_cons_of_mem _ h1)
          · exact Or.inr h1

theorem Dict.nodupKeys_set {α : Type} (d : Dict α) (k : Nat) (v : α)
    (hnd : NodupKeys d) : NodupKeys (d.set k v) := by
  induction d with
  | nil => exact List.nodup_singleton k
  | cons hd tl ih =>
      obtain ⟨k₀, v₀⟩ := hd
      obtain ⟨hmem, hnd'⟩ := nodup_cons_split k₀ v₀ tl hnd
      by_cases hk : k₀ = k
      · subst hk
        rw [Dict.set_cons, if_pos rfl]
        exact List.nodup_cons.mpr ⟨hmem, hnd'⟩
      · rw [Dict.set_cons, if_neg hk]
        refine List.nodup_cons.mpr ⟨?_, ih hnd'⟩
        intro hcon
        rcases Dict.mem_keys_set tl k v k₀ hcon with h1 | h1
        · exact hmem h1
        · exact hk h1

/-- C6: `delete_node_by_id` removes only the node at `id` — unlinking it
from an existing parent's `children` — and returns the removed node; every
other node is left unchanged and remains queryable by its id; deleting an
absent id returns the `None` not-found signal and changes nothing; the
Ledger is untouched. -/
theorem c6_shallow_delete (t : MarketTree) (id : Nat)
    (hnd : Dict.NodupKeys t.nodes) :
    (t.nodes.get? id = none → t.delete_node_by_id id = .ok (t, none)) ∧
    (∀ n, t.nodes.get? id = some n →
      ((∀ p, n.parent_id = some p → t.nodes.get? p = none) →
        ∃ t', t.delete_node_by_id id = .ok (t', some n) ∧
          t'.nodes.get? id = none ∧
          (∀ k, k ≠ id → t'.nodes.get? k = t.nodes.get? k) ∧
          t'.price_by_id = t.price_by_id) ∧
      (∀ p pn pcs, n.parent_id = some p → p ≠ id → t.nodes.get? p = some pn →
        pn.children = some pcs → id ∈ pcs →
        ∃ t', t.delete_node_by_id id = .ok (t', some n) ∧
          t'.nodes.get? id = none ∧
          t'.nodes.get? p = some { pn with children := some (pcs.erase id) } ∧
          (∀ k, k ≠ id → k ≠ p → t'.nodes.get? k = t.nodes.get? k) ∧
          t'.price_by_id = t.price_by_id)) := by
  constructor
  · intro h
    unfold MarketTree.delete_node_by_id
    rw [h]
  · intro n hn
    constructor
    · intro hpar
      unfold MarketTree.delete_node_by_id
      rw [hn]
      dsimp only
      cases hp : n.parent_id with
      | none =>
          exact ⟨_, rfl, Dict.get?_erase_self _ _ hnd,
            fun k hk => Dict.get?_erase_ne _ _ _ hk, rfl⟩
      | some p =>
          dsimp only
          rw [hpar p hp]
          exact ⟨_, rfl, Dict.get?_erase_self _ _ hnd,
            fun k hk => Dict.get?_erase_ne _ _ _ hk, rfl⟩
    · intro p pn pcs hp hpne hpn hch hmem
      unfold MarketTree.delete_node_by_id
      simp only [hn, hp, hpn, hch]
      rw [if_pos hmem]
      refine ⟨_, rfl, ?_, ?_, ?_, rfl⟩
      · exact Dict.get?_erase_self _ _ (Dict.nodupKeys_set _ _ _ hnd)
      · rw [Dict.get?_erase_ne _ _ _ hpne, Dict.get?_set_self]
      · intro k hkid hkp
        rw [Dict.get?_erase_ne _ _ _ hkid, Dict.get?_set_ne _ _ _ _ hkp]

/-- The category `1` with single child offer `2` used to witness C6. -/
def c6_cat : Node := ⟨1, "c", none, NodeType.CATEGORY, none, 0, some [2]⟩

/-- The offer `2` with parent `1` used to witness C6. -/
def c6_off : Node := ⟨2, "o", some 1, NodeType.OFFER, some 10, 0, none⟩

/-- The two-node tree used to witness C6. -/
def c6_tree : MarketTree := ⟨[(1, c6_cat), (2, c6_off)], [(2, [(0, 10)])]⟩

/-- C6 witness: deleting offer `2` unlinks it from category `1` and leaves
everything else untouched; deleting the absent id `3` signals not-found. -/
theorem c6_witness :
    (∃ t', c6_tree.delete_node_by_id 2 = .ok (t', some c6_off) ∧
      t'.nodes.get? 2 = none ∧
      t'.nodes.get? 1 = some { c6_cat with children := some (List.erase [2] 2) } ∧
      (∀ k, k ≠ 2 → k ≠ 1 → t'.nodes.get? k = c6_tree.nodes.get? k) ∧
      t'.price_by_id = c6_tree.price_by_id) ∧
    c6_tree.delete_node_by_id 3 = .ok (c6_tree, none) := by
  constructor
  · exact ((c6_shallow_delete c6_tree 2
        (by decide : ([1, 2] : List Nat).Nodup)).2 c6_off rfl).2 1 c6_cat [2]
      rfl (by decide) rfl rfl (by decide)
  · exact (c6_shallow_delete c6_tree 3
        (by decide : ([1, 2] : List Nat).Nodup)).1 rfl

/-- C3: for an OFFER in the Tree with Ledger history, `get_statistic_by_id`
returns exactly the observations whose timestamp lies in the closed-closed
interval (absent bound unbounded, both absent the full history), one entry
per observation carrying the offer's identity fields, in ascending
timestamp order; and the window test is exactly the closed-closed
policy. -/
theorem c3_offer_statistics (t : MarketTree) (id : Nat) (sd ed : Option Int)
    (n : Node) (hist : List (Int × Int))
    (hn : t.nodes.get? id = some n) (htype : n.type = NodeType.OFFER)
    (hh : t.price_by_id.get? id = some hist) :
    ∃ items, t.get_statistic_by_id id sd ed = .ok items ∧
      (items.map (fun e => (e.date, e.price))).Perm
        ((hist.filter (fun o => statRange sd ed o.1)).map (fun o => (o.1, some o.2))) ∧
      List.Pairwise (fun a b => a ≤ b) (items.map (fun e => e.date)) ∧
      (∀ e ∈ items, e.id = id ∧ e.name = n.name ∧ e.parentId = n.parent_id ∧
        e.type = NodeType.OFFER) ∧
      (∀ d : Int, statRange sd ed d = true ↔
        ((∀ s, sd = some s → s ≤ d) ∧ (∀ e, ed = some e → d ≤ e))) := by
  refine ⟨((sortAsc hist).filter (fun o => statRange sd ed o.1)).map
      (fun o => ⟨id, n.name, o.1, n.parent_id, some o.2, NodeType.OFFER⟩), ?_, ?_, ?_, ?_, ?_⟩
  · unfold MarketTree.get_statistic_by_id
    simp only [hn, htype, hh]
  · rw [List.map_map]
    exact List.Perm.map _ ((List.perm_insertionSort tsLE hist).filter _)
  · rw [List.map_map]
    have hs : List.Pairwise tsLE (sortAsc hist) := List.sorted_insertionSort tsLE hist
    have hs2 : List.Pairwise tsLE ((sortAsc hist).filter (fun o => statRange sd ed o.1)) :=
      List.Pairwise.sublist (List.filter_sublist _) hs
    exact hs2.map _ (fun a b h => h)
  · intro e he
    rcases List.mem_map.mp he with ⟨o, ho, rfl⟩
    exact ⟨rfl, rfl, rfl, rfl⟩
  · exact statRange_iff sd ed

/-- C3 witness: offer `2` of `c6_tree` with its single observation and no
bounds. -/
theorem c3_witness :
    ∃ items, c6_tree.get_statistic_by_id 2 none none = .ok items ∧
      (items.map (fun e => (e.date, e.price))).Perm
        ((([(0, 10)] : List (Int × Int)).filter (fun o => statRange none none o.1)).map
          (fun o => (o.1, some o.2))) ∧
      List.Pairwise (fun a b => a ≤ b) (items.map (fun e => e.date)) ∧
      (∀ e ∈ items, e.id = 2 ∧ e.name = c6_off.name ∧ e.parentId = c6_off.parent_id ∧
        e.type = NodeType.OFFER) ∧
      (∀ d : Int, statRange none none d = true ↔
        ((∀ s, (none : Option Int) = some s → s ≤ d) ∧
         (∀ e, (none : Option Int) = some e → d ≤ e))) :=
  c3_offer_statistics c6_tree 2 none none c6_off [(0, 10)] rfl rfl rfl

/-- The `get_sales` loop, characterised entry by entry: it emits at most
one sale per ledger key (a sublist of the keys), every emitted sale is the
most recent qualifying observation of its offer, and every offer with a
qualifying observation is emitted. -/
theorem get_sales_go_spec (nodes : Dict Node) (date : Int)
    (hid : ∀ k kn, nodes.get? k = some kn → kn.id = k) :
    ∀ ps : List (Nat × List (Int × Int)),
      (∀ q ∈ ps, (nodes.get? q.1).isSome = true) →
      ∃ items, MarketTree.get_sales_go nodes date ps = .ok items ∧
        (items.map SaleEntry.id).Sublist (ps.map Prod.fst) ∧
        (∀ e ∈ items, ∃ q ∈ ps, e.id = q.1 ∧ (e.date, e.price) ∈ q.2 ∧
          days_le_one date e.date = true ∧
          (∀ o ∈ q.2, days_le_one date o.1 = true → o.1 ≤ e.date)) ∧
        (∀ q ∈ ps, (∃ o ∈ q.2, days_le_one date o.1 = true) →
          ∃ e ∈ items, e.id = q.1) := by
  intro ps
  induction ps with
  | nil =>
      intro _
      refine ⟨[], rfl, List.nil_sublist _, ?_, ?_⟩
      · intro e he; exact absurd he (List.not_mem_nil e)
      · intro q hq; exact absurd hq (List.not_mem_nil q)
  | cons hd tl ih =>
      intro hsub
      obtain ⟨id, hist⟩ := hd
      have hsub' : ∀ q ∈ tl, (nodes.get? q.1).isSome = true :=
        fun q hq => hsub q (List.mem_cons_of_mem _ hq)
      obtain ⟨items, hgo, hsl, hfrom, hcover⟩ := ih hsub'
      unfold MarketTree.get_sales_go
      cases hf : (sortDesc hist).find? (fun o => days_le_one date o.1) with
      | none =>
          refine ⟨items, ?_, ?_, ?_, ?_⟩
          · simp only [hf]; exact hgo
          · exact hsl.cons _
          · intro e he
            obtain ⟨q, hq, rest⟩ := hfrom e he
            exact ⟨q, List.mem_cons_of_mem _ hq, rest⟩
          · intro q hq hex
            rcases List.mem_cons.mp hq with rfl | hq'
            · obtain ⟨o, ho, hqo⟩ := hex
              have hmem : o ∈ sortDesc hist :=
                ((List.perm_insertionSort tsGE hist).mem_iff).mpr ho
              have hnone := List.find?_eq_none.mp hf o hmem
              exact absurd hqo hnone
            · exact hcover q hq' hex
      | some o =>
          have hs : (nodes.get? id).isSome = true :=
            hsub (id, hist) (List.mem_cons_self _ _)
          obtain ⟨node, hnode⟩ := Option.isSome_iff_exists.mp hs
          have hnid : node.id = id := hid id node hnode
          refine ⟨⟨node.id, node.name, convert_date o.1, node.parent_id, o.2, node.type⟩
              :: items, ?_, ?_, ?_, ?_⟩
          · simp only [hf, hnode, hgo]
          · simp only [List.map_cons]
            rw [hnid]
            exact hsl.cons₂ _
          · intro e he
            rcases List.mem_cons.mp he with rfl | he'
            · refine ⟨(id, hist), List.mem_cons_self _ _, hnid, ?_, ?_, ?_⟩
              · have hom : o ∈ sortDesc hist := List.mem_of_find?_eq_some hf
                have ho : o ∈ hist := (List.perm_insertionSort tsGE hist).mem_iff.mp hom
                simpa [convert_date] using ho
              · have := List.find?_some hf
                simpa [convert_date] using this
              · intro o' ho' hq'
                have hmem' : o' ∈ sortDesc hist :=
                  ((List.perm_insertionSort tsGE hist).mem_iff).mpr ho'
                exact find?_desc_dominates _ (sortDesc hist)
                  (List.sorted_insertionSort tsGE hist) o hf o' hmem' hq'
            · obtain ⟨q, hq, rest⟩ := hfrom e he'
              exact ⟨q, List.mem_cons_of_mem _ hq, rest⟩
          · intro q hq hex
            rcases List.mem_cons.mp hq with rfl | hq'
            · exact ⟨_, List.mem_cons_self _ _, hnid⟩
            · obtain ⟨e, he, heid⟩ := hcover q hq' hex
              exact ⟨e, List.mem_cons_of_mem _ he, heid⟩

/-- C4: `get_sales(asOf)` contains at most one entry per offer; for each
offer with Ledger history it is the most recent observation whose
truncated-day difference satisfies `days <= 1`; offers with no qualifying
observation are omitted; offers with no history have no ledger key and so
are omitted; and the day window admits exactly the observations less than
48 elapsed hours old (future ones included). -/
theorem c4_recent_sales (t : MarketTree) (asOf : Int)
    (hsub : ∀ q ∈ t.price_by_id.entries, (t.nodes.get? q.1).isSome = true)
    (hid : ∀ k kn, t.nodes.get? k = some kn → kn.id = k)
    (hnodup : Dict.NodupKeys t.price_by_id) :
    ∃ items, t.get_sales asOf = .ok items ∧
      (items.map SaleEntry.id).Nodup ∧
      (∀ e ∈ items, ∃ hist, t.price_by_id.get? e.id = some hist ∧
        (e.date, e.price) ∈ hist ∧ days_le_one asOf e.date = true ∧
        (∀ o ∈ hist, days_le_one asOf o.1 = true → o.1 ≤ e.date)) ∧
      (∀ id hist, t.price_by_id.get? id = some hist →
        (∃ o ∈ hist, days_le_one asOf o.1 = true) → ∃ e ∈ items, e.id = id) ∧
      (∀ id hist, t.price_by_id.get? id = some hist →
        (∀ o ∈ hist, days_le_one asOf o.1 = false) → ∀ e ∈ items, e.id ≠ id) ∧
      (∀ d : Int, days_le_one asOf d = true ↔ asOf - d < 172800) := by
  obtain ⟨items, hgo, hsl, hfrom, hcover⟩ :=
    get_sales_go_spec t.nodes asOf hid t.price_by_id.entries hsub
  refine ⟨items, hgo, hsl.nodup hnodup, ?_, ?_, ?_, fun d => days_le_one_iff asOf d⟩
  · intro e he
    obtain ⟨q, hq, heid, hmem, hql, hdom⟩ := hfrom e he
    refine ⟨q.2, ?_, hmem, hql, hdom⟩
    rw [heid]
    exact Dict.get?_of_mem_nodup _ _ _ hnodup (by cases q; exact hq)
  · intro id hist hg hex
    exact hcover (id, hist) (Dict.get?_mem _ _ _ hg) hex
  · intro id hist hg hall e he heid
    obtain ⟨q, hq, heid', hmem, hql, _⟩ := hfrom e he
    have h1 : (q.1, q.2) ∈ t.price_by_id.entries := by cases q; exact hq
    have h2 : t.price_by_id.get? q.1 = some q.2 :=
      Dict.get?_of_mem_nodup _ _ _ hnodup h1
    have h3 : q.1 = id := by rw [← heid', heid]
    rw [h3, hg] at h2
    have h4 : hist = q.2 := Option.some.inj h2
    have h5 : days_le_one asOf e.date = false := hall (e.date, e.price) (h4 ▸ hmem)
    rw [hql] at h5
    exact Bool.noConfusion h5

/-- C4 witness: `c6_tree` at `asOf = 0` with its single-offer ledger. -/
theorem c4_witness :
    ∃ items, c6_tree.get_sales 0 = .ok items ∧
      (items.map SaleEntry.id).Nodup ∧
      (∀ e ∈ items, ∃ hist, c6_tree.price_by_id.get? e.id = some hist ∧
        (e.date, e.price) ∈ hist ∧ days_le_one 0 e.date = true ∧
        (∀ o ∈ hist, days_le_one 0 o.1 = true → o.1 ≤ e.date)) ∧
      (∀ id hist, c6_tree.price_by_id.get? id = some hist →
        (∃ o ∈ hist, days_le_one 0 o.1 = true) → ∃ e ∈ items, e.id = id) ∧
      (∀ id hist, c6_tree.price_by_id.get? id = some hist →
        (∀ o ∈ hist, days_le_one 0 o.1 = false) → ∀ e ∈ items, e.id ≠ id) ∧
      (∀ d : Int, days_le_one 0 d = true ↔ 0 - d < 172800) := by
  refine c4_recent_sales c6_tree 0 ?_ ?_ (by decide : ([2] : List Nat).Nodup)
  · intro q hq
    rcases List.mem_singleton.mp hq with rfl
    rfl
  · intro k kn h
    simp only [c6_tree] at h
    rw [Dict.get?_cons] at h
    by_cases h1 : (1 : Nat) = k
    · rw [if_pos h1] at h
      cases Option.some.inj h
      exact h1.symm ▸ rfl
    · rw [if_neg h1, Dict.get?_cons] at h
      by_cases h2 : (2 : Nat) = k
      · rw [if_pos h2] at h
        cases Option.some.inj h
        exact h2.symm ▸ rfl
      · rw [if_neg h2] at h
        exact Option.noConfusion h

/-- The per-child loop of the price aggregation computes the running sum
and count of the spec-side descendant price list. -/
theorem calc_price_loop_eq_desc
    (rec1 : Dict Node → Nat → Except PyErr (Int × Int))
    (rec2 : Dict Node → Nat → Except PyErr (List Int))
    (hrec : ∀ nodes c, rec1 nodes c =
      (rec2 nodes c).map (fun l => (l.sum, (l.length : Int)))) :
    ∀ (nodes : Dict Node) (cs : List Nat) (amount count : Int),
      MarketTree.calculate_price_loop rec1 nodes cs amount count =
        (descendant_offer_prices_loop rec2 nodes cs).map
          (fun l => (amount + l.sum, count + l.length)) := by
  intro nodes cs
  induction cs with
  | nil =>
      intro amount count
      simp [MarketTree.calculate_price_loop, descendant_offer_prices_loop, Except.map]
  | cons c rest ih =>
      intro amount count
      unfold MarketTree.calculate_price_loop descendant_offer_prices_loop
      cases hn : nodes.get? c with
      | none => rfl
      | some cn =>
          dsimp only
          cases htp : cn.type with
          | OFFER =>
              dsimp only
              cases hpr : cn.price with
              | none => rfl
              | some p =>
                  dsimp only
                  rw [ih (amount + p) (count + 1)]
                  cases hdl : descendant_offer_prices_loop rec2 nodes rest with
                  | error e => rfl
                  | ok l =>
                      simp only [Except.map, List.sum_cons, List.length_cons,
                        Except.ok.injEq, Prod.mk.injEq]
                      constructor
                      · ring
                      · push_cast
                        ring
          | CATEGORY =>
              dsimp only
              rw [hrec nodes c]
              cases hc : rec2 nodes c with
              | error e => rfl
              | ok l1 =>
                  simp only [Except.map]
                  rw [ih (amount + l1.sum) (count + l1.length)]
                  cases hdl : descendant_offer_prices_loop rec2 nodes rest with
                  | error e => rfl
                  | ok l2 =>
                      simp only [Except.map, List.sum_append, List.length_append,
                        Except.ok.injEq, Prod.mk.injEq]
                      constructor
                      · ring
                      · push_cast
                        ring

/-- Refinement of the source aggregation by the spec-side description: the
recursive `(amount, count)` of `calculate_price_for_category` is exactly
the sum and length of the descendant-offer price list. -/
theorem calc_price_eq_desc :
    ∀ (fuel : Nat) (nodes : Dict Node) (id : Nat),
      MarketTree.calculate_price_for_category fuel nodes id =
        (descendant_offer_prices fuel nodes id).map
          (fun l => (l.sum, (l.length : Int))) := by
  intro fuel
  induction fuel with
  | zero => intro nodes id; rfl
  | succ fuel ih =>
      intro nodes id
      unfold MarketTree.calculate_price_for_category descendant_offer_prices
      cases hn : nodes.get? id with
      | none => rfl
      | some n =>
          dsimp only
          cases hch : n.children with
          | none => rfl
          | some cs =>
              dsimp only
              rw [calc_price_loop_eq_desc _ _ ih nodes cs 0 0]
              cases hdl : descendant_offer_prices_loop (descendant_offer_prices fuel) nodes cs with
              | error e => rfl
              | ok l => simp [Except.map]

/-- C2 (amended): for a CATEGORY whose descendant-offer price list is
`ps`, the CATEGORY branch of `GetStatistics` reports
`floor(sum(ps) / length(ps))` and `null` when `ps` is empty; `GetView`
reports the same floor-division price when it succeeds and `ps` is
non-empty, but with zero descendant OFFERs `GetView` fails (with the
unguarded `amount // count` division) instead of reporting null. -/
theorem c2_category_price (t : MarketTree) (id : Nat) (n : Node) (cs : List Nat)
    (ps : List Int) (d : Int)
    (hn : t.nodes.get? id = some n) (htype : n.type = NodeType.CATEGORY)
    (hch : n.children = some cs) (hid : n.id = id)
    (hp : descendant_offer_prices (t.nodes.length + 1) t.nodes id = .ok ps)
    (hd : MarketTree.calculate_date_for_category (t.nodes.length + 1) t.nodes id = .ok d) :
    t.get_statistic_by_id id none none =
      .ok [⟨id, n.name, d, n.parent_id,
        (if ps = [] then none else some (Int.fdiv ps.sum ps.length)),
        NodeType.CATEGORY⟩] ∧
    (ps ≠ [] → ∀ v, App.get_nodes_by_id t id = .ok v →
      v.price = some (Int.fdiv ps.sum ps.length)) ∧
    (ps = [] → ∀ v, App.get_nodes_by_id t id ≠ .ok v) := by
  have hcalc : MarketTree.calculate_price_for_category (t.nodes.length + 1) t.nodes id =
      .ok (ps.sum, (ps.length : Int)) := by
    rw [calc_price_eq_desc, hp]
    rfl
  refine ⟨?_, ?_, ?_⟩
  · unfold MarketTree.get_statistic_by_id
    simp only [hn, htype, hd, hcalc]
    by_cases hps : ps = []
    · subst hps
      simp [statRange]
    · have hlen : ¬ ((ps.length : Int) = 0) := by
        intro h
        exact hps (List.length_eq_zero.mp (by exact_mod_cast h))
      simp [statRange, hps, hlen]
  · intro hps v hv
    unfold App.get_nodes_by_id at hv
    rw [hn] at hv
    unfold MarketTree.get_nodes at hv
    simp only [hch, hid, hcalc] at hv
    cases hcv : MarketTree.get_nodes_children (MarketTree.get_nodes t.nodes.length)
        t.nodes (List.insertionSort (fun a b => a ≤ b) cs) with
    | error e =>
        rw [hcv] at hv
        exact absurd hv (by simp)
    | ok views =>
        rw [hcv] at hv
        dsimp only at hv
        have hlen : ¬ ((ps.length : Int) = 0) := by
          intro h
          exact hps (List.length_eq_zero.mp (by exact_mod_cast h))
        rw [if_neg hlen] at hv
        cases hcd : MarketTree.calculate_date_for_category (t.nodes.length + 1) t.nodes id with
        | error e =>
            rw [hcd] at hv
            exact absurd hv (by simp)
        | ok dd =>
            rw [hcd] at hv
            dsimp only at hv
            have := Except.ok.inj hv
            rw [← this]
            rfl
  · intro hps v hv
    unfold App.get_nodes_by_id at hv
    rw [hn] at hv
    unfold MarketTree.get_nodes at hv
    simp only [hch, hid, hcalc] at hv
    cases hcv : MarketTree.get_nodes_children (MarketTree.get_nodes t.nodes.length)
        t.nodes (List.insertionSort (fun a b => a ≤ b) cs) with
    | error e =>
        rw [hcv] at hv
        exact absurd hv (by simp)
    | ok views =>
        rw [hcv] at hv
        dsimp only at hv
        have hlen : ((ps.length : Int) = 0) := by
          subst hps
          rfl
        rw [if_pos hlen] at hv
        exact absurd hv (by simp)

/-- C2 witness: the category `1` of `c6_tree` with single descendant offer
price 10 — the statistics entry carries the floor-division price. -/
theorem c2_witness :
    c6_tree.get_statistic_by_id 1 none none =
      .ok [⟨1, "c", 0, none, some 10, NodeType.CATEGORY⟩] := by
  have h := (c2_category_price c6_tree 1 c6_cat [2] [10] 0
    rfl rfl rfl rfl rfl rfl).1
  rw [h]
  rfl

/-- The backfill loop started from a real children list never raises: it
returns a list that extends the start, keeps every element's multiplicity
at most `max (old count) 1` (the duplicate guard), and adopts the key of
every entry whose parent matches. -/
theorem backfill_some_spec (id : Nat) :
    ∀ (entries : List (Nat × Node)) (l : List Nat),
      ∃ l', MarketTree.backfill_children id entries (some l) = (some l', none) ∧
        (∀ x, x ∈ l → x ∈ l') ∧
        (∀ x, List.count x l' ≤ max (List.count x l) 1) ∧
        (∀ q ∈ entries, q.2.parent_id = some id → q.1 ∈ l') := by
  intro entries
  induction entries with
  | nil =>
      intro l
      exact ⟨l, rfl, fun x h => h, fun x => le_max_left _ _,
        fun q hq _ => absurd hq (List.not_mem_nil q)⟩
  | cons hd tl ih =>
      intro l
      obtain ⟨nid, ninfo⟩ := hd
      unfold MarketTree.backfill_children
      by_cases hpm : ninfo.parent_id = some id
      · rw [if_pos hpm]
        dsimp only
        by_cases hin : nid ∈ l
        · rw [if_pos hin]
          obtain ⟨l', h1, h2, h3, h4⟩ := ih l
          refine ⟨l', h1, h2, h3, ?_⟩
          intro q hq hqp
          rcases List.mem_cons.mp hq with rfl | hq'
          · exact h2 nid hin
          · exact h4 q hq' hqp
        · rw [if_neg hin]
          obtain ⟨l', h1, h2, h3, h4⟩ := ih (l ++ [nid])
          refine ⟨l', h1, ?_, ?_, ?_⟩
          · intro x hx
            exact h2 x (List.mem_append_left _ hx)
          · intro x
            have hx := h3 x
            by_cases hxn : x = nid
            · subst hxn
              have hcl : List.count x l = 0 := List.count_eq_zero.mpr hin
              rw [List.count_append, hcl, List.count_singleton_self] at hx
              omega
            · rw [List.count_append,
                List.count_singleton, if_neg (by simpa using fun h => hxn h.symm),
                Nat.add_zero] at hx
              exact hx
          · intro q hq hqp
            rcases List.mem_cons.mp hq with rfl | hq'
            · exact h2 nid (List.mem_append_right _ (List.mem_singleton_self _))
            · exact h4 q hq' hqp
      · rw [if_neg hpm]
        obtain ⟨l', h1, h2, h3, h4⟩ := ih l
        refine ⟨l', h1, h2, h3, ?_⟩
        intro q hq hqp
        rcases List.mem_cons.mp hq with rfl | hq'
        · exact absurd hqp hpm
        · exact h4 q hq' hqp

/-- After the parent-registration step, the parent's `children` holds the
new id exactly once, provided it held it at most once before. -/
theorem register_parent_count (t2 : MarketTree) (nid p : Nat) (pn : Node)
    (pcs : List Nat)
    (hp2 : t2.nodes.get? p = some pn) (hch : pn.children = some pcs)
    (hcnt : List.count nid pcs ≤ 1) :
    ∃ pn' pcs', (MarketTree.register_in_parent t2 nid (some p)).1.nodes.get? p = some pn' ∧
      pn'.children = some pcs' ∧ List.count nid pcs' = 1 := by
  unfold MarketTree.register_in_parent
  dsimp only
  rw [hp2]
  dsimp only
  rw [hch]
  dsimp only
  by_cases hin : nid ∈ pcs
  · rw [if_pos hin]
    refine ⟨pn, pcs, hp2, hch, ?_⟩
    have h1 : 0 < List.count nid pcs := List.count_pos_iff.mpr hin
    omega
  · rw [if_neg hin]
    refine ⟨_, pcs ++ [nid], Dict.get?_set_self _ _ _, rfl, ?_⟩
    rw [List.count_append, List.count_eq_zero.mpr hin, List.count_singleton_self]

/-- The parent-registration step never removes anything from the new
node's own `children`. -/
theorem register_keeps_self (t2 : MarketTree) (nid : Nat) (parent_id : Option Nat)
    (cn : Node) (cns : List Nat)
    (h : t2.nodes.get? nid = some cn) (hc : cn.children = some cns) :
    ∃ cns', (MarketTree.register_in_parent t2 nid parent_id).1.nodes.get? nid =
      some { cn with children := some cns' } ∧ ∀ x ∈ cns, x ∈ cns' := by
  unfold MarketTree.register_in_parent
  cases parent_id with
  | none =>
      refine ⟨cns, ?_, fun x hx => hx⟩
      dsimp only
      rw [h, ← hc]
  | some p =>
      dsimp only
      by_cases hpn : p = nid
      · subst hpn
        rw [h]
        dsimp only
        rw [hc]
        dsimp only
        by_cases hin : p ∈ cns
        · rw [if_pos hin]
          refine ⟨cns, ?_, fun x hx => hx⟩
          dsimp only
          rw [h, ← hc]
        · rw [if_neg hin]
          refine ⟨cns ++ [p], ?_, fun x hx => List.mem_append_left _ hx⟩
          dsimp only
          rw [Dict.get?_set_self]
      · cases hgp : t2.nodes.get? p with
        | none =>
            refine ⟨cns, ?_, fun x hx => hx⟩
            dsimp only
            rw [h, ← hc]
        | some pn =>
            dsimp only
            cases hpc : pn.children with
            | none =>
                refine ⟨cns, ?_, fun x hx => hx⟩
                dsimp only
                rw [h, ← hc]
            | some cs2 =>
                dsimp only
                by_cases hin : nid ∈ cs2
                · rw [if_pos hin]
                  refine ⟨cns, ?_, fun x hx => hx⟩
                  dsimp only
                  rw [h, ← hc]
                · rw [if_neg hin]
                  refine ⟨cns, ?_, fun x hx => hx⟩
                  dsimp only
                  rw [Dict.get?_set_ne _ _ _ _ (fun hh => hpn hh.symm), h, ← hc]

/-- C5: after a successful upsert whose `parentId` names an existing
CATEGORY, that category's `children` holds the new id exactly once; and a
successful (re)write of a CATEGORY (whose stored price slot is `None`, as
the data model requires) adopts every other node whose `parentId` equals
the category's id into its `children`. -/
theorem c5_parent_child_sync (t : MarketTree) (node : NodeIn) :
    (∀ p pn pcs, node.parent_id = some p → t.nodes.get? p = some pn →
      pn.type = NodeType.CATEGORY → pn.children = some pcs →
      List.count node.id pcs ≤ 1 → (t.add node).2 = none →
      ∃ pn' pcs', (t.add node).1.nodes.get? p = some pn' ∧
        pn'.children = some pcs' ∧ List.count node.id pcs' = 1) ∧
    (node.type = NodeType.CATEGORY → node.price = none →
      (t.add node).2 = none →
      ∀ k kn, k ≠ node.id → t.nodes.get? k = some kn →
        kn.parent_id = some node.id →
        ∃ cn cns, (t.add node).1.nodes.get? node.id = some cn ∧
          cn.children = some cns ∧ k ∈ cns) := by
  constructor
  · intro p pn pcs hpar hp htypeP hch hcnt hok
    unfold MarketTree.add at hok ⊢
    simp only [hpar] at hok ⊢
    by_cases hid : p = node.id
    · subst hid
      simp only [hp, hch] at hok ⊢
      by_cases htr : truthy node.price = true
      · rw [if_pos htr]
        dsimp only
        exact register_parent_count _ node.id node.id
          ⟨node.id, node.name, some node.id, node.type, node.price, node.date, some pcs⟩ pcs
          (Dict.get?_set_self _ _ _) rfl hcnt
      · rw [if_neg htr]
        by_cases hnt : node.type = NodeType.CATEGORY
        · rw [if_pos hnt]
          obtain ⟨l', hbf, hsubl, hcntl, hadopt⟩ := backfill_some_spec node.id
            ((t.nodes.set node.id
              ⟨node.id, node.name, some node.id, node.type, node.price, node.date,
                some pcs⟩).entries) pcs
          rw [hbf]
          dsimp only
          exact register_parent_count _ node.id node.id
            ⟨node.id, node.name, some node.id, node.type, node.price, node.date, some l'⟩ l'
            (Dict.get?_set_self _ _ _) rfl
            (le_trans (hcntl node.id) (max_le hcnt (le_refl 1)))
        · rw [if_neg hnt]
          dsimp only
          exact register_parent_count _ node.id node.id
            ⟨node.id, node.name, some node.id, node.type, node.price, node.date, some pcs⟩ pcs
            (Dict.get?_set_self _ _ _) rfl hcnt
    · by_cases htr : truthy node.price = true
      · rw [if_pos htr]
        dsimp only
        exact register_parent_count _ node.id p pn pcs
          (by rw [Dict.get?_set_ne _ _ _ _ hid]; exact hp) hch hcnt
      · rw [if_neg htr] at hok ⊢
        by_cases hnt : node.type = NodeType.CATEGORY
        · rw [if_pos hnt] at hok ⊢
          cases hold : t.nodes.get? node.id with
          | none =>
              simp only [hold] at hok ⊢
              rw [if_pos hnt] at hok ⊢
              obtain ⟨l', hbf, hsubl, hcntl, hadopt⟩ := backfill_some_spec node.id
                ((t.nodes.set node.id
                  ⟨node.id, node.name, some p, node.type, node.price, node.date, some []⟩).entries)
                []
              rw [hbf]
              dsimp only
              exact register_parent_count _ node.id p pn pcs
                (by rw [Dict.get?_set_ne _ _ _ _ hid, Dict.get?_set_ne _ _ _ _ hid]
                    exact hp) hch hcnt
          | some old =>
              simp only [hold] at hok ⊢
              cases hoc : old.children with
              | none =>
                  simp only [hoc] at hok ⊢
                  cases hbfc : MarketTree.backfill_children node.id
                      ((t.nodes.set node.id
                        ⟨node.id, node.name, some p, node.type, node.price, node.date,
                          none⟩).entries) none with
                  | mk cs err =>
                      rw [hbfc] at hok
                      cases err with
                      | some e =>
                          dsimp only at hok
                          exact Option.noConfusion hok
                      | none =>
                          dsimp only
                          exact register_parent_count _ node.id p pn pcs
                            (by rw [Dict.get?_set_ne _ _ _ _ hid,
                                  Dict.get?_set_ne _ _ _ _ hid]
                                exact hp) hch hcnt
              | some l =>
                  simp only [hoc] at hok ⊢
                  obtain ⟨l', hbf, hsubl, hcntl, hadopt⟩ := backfill_some_spec node.id
                    ((t.nodes.set node.id
                      ⟨node.id, node.name, some p, node.type, node.price, node.date,
                        some l⟩).entries) l
                  rw [hbf]
                  dsimp only
                  exact register_parent_count _ node.id p pn pcs
                    (by rw [Dict.get?_set_ne _ _ _ _ hid, Dict.get?_set_ne _ _ _ _ hid]
                        exact hp) hch hcnt
        · rw [if_neg hnt]
          dsimp only
          exact register_parent_count _ node.id p pn pcs
            (by rw [Dict.get?_set_ne _ _ _ _ hid]; exact hp) hch hcnt
  · intro hcat hpnone hok k kn hkne hk hkpar
    have htr : ¬ truthy node.price = true := by
      rw [hpnone]
      exact fun h => Bool.noConfusion h
    unfold MarketTree.add at hok ⊢
    dsimp only at hok ⊢
    rw [if_neg htr] at hok ⊢
    rw [if_pos hcat] at hok ⊢
    cases hold : t.nodes.get? node.id with
    | none =>
        simp only [hold] at hok ⊢
        rw [if_pos hcat] at hok ⊢
        obtain ⟨l', hbf, hsubl, hcntl, hadopt⟩ := backfill_some_spec node.id
          ((t.nodes.set node.id
            ⟨node.id, node.name, node.parent_id, node.type, node.price, node.date,
              some []⟩).entries) []
        rw [hbf]
        dsimp only
        obtain ⟨cns', hres, hsup⟩ := register_keeps_self
          ⟨(t.nodes.set node.id
              ⟨node.id, node.name, node.parent_id, node.type, node.price, node.date,
                some []⟩).set node.id
            ⟨node.id, node.name, node.parent_id, node.type, node.price, node.date, some l'⟩,
            t.price_by_id⟩
          node.id node.parent_id
          ⟨node.id, node.name, node.parent_id, node.type, node.price, node.date, some l'⟩ l'
          (Dict.get?_set_self _ _ _) rfl
        refine ⟨_, cns', hres, rfl, hsup k ?_⟩
        refine hadopt (k, kn) (Dict.get?_mem _ _ _ ?_) hkpar
        rw [Dict.get?_set_ne _ _ _ _ hkne]
        exact hk
    | some old =>
        simp only [hold] at hok ⊢
        cases hoc : old.children with
        | none =>
            simp only [hoc] at hok ⊢
            rw [backfill_none_of_match node.id _
              ⟨(k, kn), Dict.get?_mem _ _ _
                (by rw [Dict.get?_set_ne _ _ _ _ hkne]; exact hk), hkpar⟩] at hok
            simp at hok
        | some l =>
            simp only [hoc] at hok ⊢
            obtain ⟨l', hbf, hsubl, hcntl, hadopt⟩ := backfill_some_spec node.id
              ((t.nodes.set node.id
                ⟨node.id, node.name, node.parent_id, node.type, node.price, node.date,
                  some l⟩).entries) l
            rw [hbf]
            dsimp only
            obtain ⟨cns', hres, hsup⟩ := register_keeps_self
              ⟨(t.nodes.set node.id
                  ⟨node.id, node.name, node.parent_id, node.type, node.price, node.date,
                    some l⟩).set node.id
                ⟨node.id, node.name, node.parent_id, node.type, node.price, node.date, some l'⟩,
                t.price_by_id⟩
              node.id node.parent_id
              ⟨node.id, node.name, node.parent_id, node.type, node.price, node.date, some l'⟩ l'
              (Dict.get?_set_self _ _ _) rfl
            refine ⟨_, cns', hres, rfl, hsup k ?_⟩
            refine hadopt (k, kn) (Dict.get?_mem _ _ _ ?_) hkpar
            rw [Dict.get?_set_ne _ _ _ _ hkne]
            exact hk

/-- C5 witness: upserting offer `2` under the empty category `1` registers
it exactly once; upserting category `5` adopts the pre-existing orphan
`3`. -/
theorem c5_witness :
    (∃ pn' pcs',
      ((MarketTree.mk [(1, ⟨1, "c", none, NodeType.CATEGORY, none, 0, some []⟩)] []).add
          ⟨2, "o", some 1, NodeType.OFFER, some 5, 7⟩).1.nodes.get? 1 = some pn' ∧
        pn'.children = some pcs' ∧ List.count 2 pcs' = 1) ∧
    (∃ cn cns,
      ((MarketTree.mk [(3, ⟨3, "o3", some 5, NodeType.OFFER, some 4, 0, none⟩)] []).add
          ⟨5, "c5", none, NodeType.CATEGORY, none, 9⟩).1.nodes.get? 5 = some cn ∧
        cn.children = some cns ∧ 3 ∈ cns) :=
  ⟨(c5_parent_child_sync
        (MarketTree.mk [(1, ⟨1, "c", none, NodeType.CATEGORY, none, 0, some []⟩)] [])
        ⟨2, "o", some 1, NodeType.OFFER, some 5, 7⟩).1
      1 ⟨1, "c", none, NodeType.CATEGORY, none, 0, some []⟩ []
      rfl rfl rfl rfl (by decide) rfl,
   (c5_parent_child_sync
        (MarketTree.mk [(3, ⟨3, "o3", some 5, NodeType.OFFER, some 4, 0, none⟩)] [])
        ⟨5, "c5", none, NodeType.CATEGORY, none, 9⟩).2
      rfl rfl rfl 3
      ⟨3, "o3", some 5, NodeType.OFFER, some 4, 0, none⟩ (by decide) rfl rfl⟩
